import Mathlib

/-!
Shallow embedding of the HFT-Rutgers-Econ-Project market simulation and
arbitrage-detection pipeline, together with proofs checking the repository's
specification claims against it.

Source files embedded: `main.py` (ArbitrageDetectionEngine), `rules.py`
(RoundTripProfitRule, PredictiveTradeRule), `config.py`, `agents.py`
(TraderAgent.step fill loops), `model.py` (AssetMarket.step price walk),
`strategies.py` (the strategy decide_action functions).

Python floats are modelled as rationals (ℚ), Python ints as ℤ, Python dicts
as functions or association lists, and raised exceptions as `Except`.
-/

namespace HFT

/-! ## Small Python-semantics helpers -/

/-- Python `str.lower()` on an ASCII string. -/
def pyLower (s : String) : String := ⟨s.data.map Char.toLower⟩

/-- Python `int(q)` applied to a float: truncation toward zero. -/
def pyInt (q : ℚ) : Int := if 0 ≤ q then ⌊q⌋ else -⌊-q⌋

/-- Python `max` of a nonempty list (0 default for the unreachable empty case). -/
def listMax : List ℚ → ℚ
  | [] => 0
  | h :: t => t.foldl max h

/-- Python `min` of a nonempty list (0 default for the unreachable empty case). -/
def listMin : List ℚ → ℚ
  | [] => 0
  | h :: t => t.foldl min h

/-! ## config.py -/

def ALLOWED_FIELDS : List String := ["tick", "agent_id", "action", "units", "price"]

def TIME_WINDOW : Int := 20

def PROFIT_THRESHOLD : ℚ := 0

def PREDICT_WINDOW : Nat := 5

def PREDICT_THRESHOLD : ℚ := 1/100

/-! ## Trade records

A ledger row, restricted to the allowed fields that the detection engine
actually reads (`tick`, `agent_id`, `action`, `units`, `price`). -/

structure Trade where
  tick : Int
  agent_id : Int
  action : String
  units : Int
  price : ℚ
deriving Repr, DecidableEq

/-! ## rules.py: per-agent suspicion dictionaries

An agent's suspicion dict `{tick: probability}` is an association list with
unique keys; `susGet` is `d.get(tick, 0)` and `susPut` is `d[tick] = v`. -/

def susGet (l : List (Int × ℚ)) (t : Int) : ℚ :=
  match l.find? (fun e => e.1 = t) with
  | some e => e.2
  | none => 0

def susPut (l : List (Int × ℚ)) (t : Int) (v : ℚ) : List (Int × ℚ) :=
  if l.any (fun e => e.1 = t) then l.map (fun e => if e.1 = t then (t, v) else e)
  else l ++ [(t, v)]

/-- Python's stable `list.sort(key=lambda x: x["tick"])`: insertion of one trade
into an already tick-sorted list, after all trades of tick ≤ its own. -/
def sortedInsert (tr : Trade) : List Trade → List Trade
  | [] => [tr]
  | h :: t => if h.tick < tr.tick then h :: sortedInsert tr t else tr :: h :: t

/-- Stable sort of a trade list by tick. -/
def sortByTick : List Trade → List Trade
  | [] => []
  | h :: t => sortedInsert h (sortByTick t)

/-! ## rules.py: RoundTripProfitRule -/

/-- Per-agent mutable state of `RoundTripProfitRule.detect`. -/
structure RTState where
  position : Int
  entry_cost : ℚ
  entry_units : Int
  entry_tick : Option Int
  realized_profit : ℚ
deriving Repr, DecidableEq

def rtInit : RTState := ⟨0, 0, 0, none, 0⟩

/-- One iteration of the trade loop in `RoundTripProfitRule.detect`
(rules.py lines 58-113), threading the state and the agent's suspicion dict.
Note the source has branches for `units < position` and `units == position`
only; a sell with `units > position` falls through both and changes nothing. -/
def rtStep (pt : ℚ) (tw : Int) (acc : RTState × List (Int × ℚ)) (tr : Trade) :
    RTState × List (Int × ℚ) :=
  let s := acc.1
  let sus := acc.2
  let action := pyLower tr.action
  if s.position = 0 then
    if action = "buy" then
      ({ position := s.position + tr.units, entry_units := tr.units,
         entry_cost := (tr.units : ℚ) * tr.price, entry_tick := some tr.tick,
         realized_profit := 0 }, sus)
    else (s, sus)
  else
    if action = "buy" then
      ({ s with position := s.position + tr.units,
                entry_units := s.entry_units + tr.units,
                entry_cost := s.entry_cost + (tr.units : ℚ) * tr.price }, sus)
    else if action = "sell" then
      if tr.units < s.position then
        let avg : ℚ := if s.entry_units > 0 then s.entry_cost / (s.entry_units : ℚ) else 0
        ({ s with realized_profit := s.realized_profit + (tr.price - avg) * (tr.units : ℚ),
                  entry_cost := s.entry_cost - avg * (tr.units : ℚ),
                  entry_units := s.entry_units - tr.units,
                  position := s.position - tr.units }, sus)
      else if tr.units = s.position then
        let avg : ℚ := if s.entry_units > 0 then s.entry_cost / (s.entry_units : ℚ) else 0
        let rp : ℚ := s.realized_profit + (tr.price - avg) * (tr.units : ℚ)
        let sus' :=
          if rp > pt * avg * (tr.units : ℚ) then
            let duration : Int :=
              match s.entry_tick with
              | some et => tr.tick - et
              | none => 0
            if duration ≤ tw then
              let sus1 := susPut sus tr.tick (max (susGet sus tr.tick) 1)
              match s.entry_tick with
              | some et => susPut sus1 et (max (susGet sus1 et) (1/2))
              | none => sus1
            else sus
          else sus
        (rtInit, sus')
      else (s, sus)
    else (s, sus)

/-- `RoundTripProfitRule.detect` restricted to one agent's trade list: sort by
tick, then run the state machine; the result is the agent's suspicion dict. -/
def roundTripAgent (pt : ℚ) (tw : Int) (trades : List Trade) : List (Int × ℚ) :=
  ((sortByTick trades).foldl (rtStep pt tw) (rtInit, [])).2

/-! ## rules.py: PredictiveTradeRule -/

/-- The forward scan of `PredictiveTradeRule.detect` (rules.py lines 142-159):
walk the future ticks `tick+1 .. tick+window`; report true if the price moves
favorably by the threshold fraction, stop scanning at the first missing tick. -/
def predictScan (pbt : Int → Option ℚ) (action : String) (price th : ℚ) :
    Int → Nat → Bool
  | _, 0 => false
  | t, n + 1 =>
    match pbt t with
    | some fp =>
      if action = "buy" then
        if fp ≥ price * (1 + th) then true else predictScan pbt action price th (t + 1) n
      else if action = "sell" then
        if fp ≤ price * (1 - th) then true else predictScan pbt action price th (t + 1) n
      else predictScan pbt action price th (t + 1) n
    | none => false

/-- `PredictiveTradeRule.detect` restricted to one agent's trade list. -/
def predictiveAgent (w : Nat) (th : ℚ) (pbt : Int → Option ℚ) (trades : List Trade) :
    List (Int × ℚ) :=
  (sortByTick trades).foldl
    (fun sus tr =>
      if predictScan pbt (pyLower tr.action) tr.price th (tr.tick + 1) w then
        susPut sus tr.tick (max (susGet sus tr.tick) 1)
      else sus)
    []

/-! ## main.py: ArbitrageDetectionEngine._organize_trades -/

/-- First loop of `_organize_trades` (main.py lines 115-128): build
`price_by_tick` keyed by tick, every trade overwriting its tick's entry
(the `or True` in the source makes the overwrite unconditional), and track
`last_price`, the price of the last trade in input order. -/
def organizePass (trades : List Trade) : (Int → Option ℚ) × Option ℚ :=
  trades.foldl
    (fun acc tr => ((fun t => if t = tr.tick then some tr.price else acc.1 t), some tr.price))
    ((fun _ => none), none)

/-- Python `min` over the set of ticks of a trade list (0 for the empty list,
where the source never evaluates it). -/
def minTick (trades : List Trade) : Int :=
  match trades.map (fun tr => tr.tick) with
  | [] => 0
  | h :: t => t.foldl min h

/-- Python `max` over the set of ticks of a trade list. -/
def maxTick (trades : List Trade) : Int :=
  match trades.map (fun tr => tr.tick) with
  | [] => 0
  | h :: t => t.foldl max h

/-- Python `range(lo, lo+n)` as a list of integers. -/
def intRangeAux (lo : Int) : Nat → List Int
  | 0 => []
  | n + 1 => lo :: intRangeAux (lo + 1) n

/-- Python `range(lo, hi+1)`. -/
def intRange (lo hi : Int) : List Int := intRangeAux lo (hi + 1 - lo).toNat

/-- Second loop of `_organize_trades` (main.py lines 131-137): walk the tick
range in order; a tick absent from `price_by_tick` receives the carried
`last_price` (when not None), a present tick resets `last_price`. -/
def fillGaps : (Int → Option ℚ) → Option ℚ → List Int → (Int → Option ℚ)
  | pbt, _, [] => pbt
  | pbt, last, t :: ts =>
    match pbt t with
    | none =>
      match last with
      | some p => fillGaps (fun u => if u = t then some p else pbt u) last ts
      | none => fillGaps pbt last ts
    | some p => fillGaps pbt (some p) ts

/-- The `price_by_tick` mapping returned by `_organize_trades`. -/
def priceByTick (trades : List Trade) : Int → Option ℚ :=
  match trades with
  | [] => (organizePass trades).1
  | _ :: _ =>
    fillGaps (organizePass trades).1 (organizePass trades).2
      (intRange (minTick trades) (maxTick trades))

/-- Insertion of an integer into a sorted integer list. -/
def sortedInsertInt (x : Int) : List Int → List Int
  | [] => [x]
  | h :: t => if h ≤ x then h :: sortedInsertInt x t else x :: h :: t

/-- Python `sorted` on a list of integers. -/
def sortInts : List Int → List Int
  | [] => []
  | h :: t => sortedInsertInt h (sortInts t)

/-- `sorted(all_ticks)` returned by `_organize_trades`: the distinct trade
ticks in ascending order. -/
def allTicksSorted (trades : List Trade) : List Int :=
  sortInts ((trades.map (fun tr => tr.tick)).dedup)

/-- `sorted(all_agents)`: the distinct agent ids in ascending order. -/
def allAgentsSorted (trades : List Trade) : List Int :=
  sortInts ((trades.map (fun tr => tr.agent_id)).dedup)

/-- The keys of `trades_by_agent` in insertion order. -/
def agentsIn (trades : List Trade) : List Int :=
  (trades.map (fun tr => tr.agent_id)).dedup

/-- `trades_by_agent[a]`: one agent's trades in input order. -/
def tradesOf (trades : List Trade) (a : Int) : List Trade :=
  trades.filter (fun tr => tr.agent_id = a)

/-! ## main.py: rule outputs and the probabilistic-OR combiner -/

/-- A rule output flattened to `(agent, tick, probability)` entries. -/
def ruleEntries (out : List (Int × List (Int × ℚ))) : List (Int × Int × ℚ) :=
  out.flatMap (fun ap => ap.2.map (fun tp => (ap.1, tp.1, tp.2)))

/-- `RoundTripProfitRule.detect`: one suspicion dict per agent, agents with an
empty dict omitted (rules.py line 114). -/
def roundTripOutput (pt : ℚ) (tw : Int) (trades : List Trade) :
    List (Int × List (Int × ℚ)) :=
  (agentsIn trades).filterMap (fun a =>
    let l := roundTripAgent pt tw (tradesOf trades a)
    if l = [] then none else some (a, l))

/-- `PredictiveTradeRule.detect`: one suspicion dict per agent. -/
def predictiveOutput (w : Nat) (th : ℚ) (trades : List Trade) :
    List (Int × List (Int × ℚ)) :=
  (agentsIn trades).filterMap (fun a =>
    let l := predictiveAgent w th (priceByTick trades) (tradesOf trades a)
    if l = [] then none else some (a, l))

/-- One combination step of `ArbitrageDetectionEngine.detect` (main.py lines
152-158): fold an entry into the combined table with the probabilistic OR
`new = 1 - (1 - prev) * (1 - p)`; absent cells read as 0.0. -/
def orStep (m : Int → Int → ℚ) (e : Int × Int × ℚ) : Int → Int → ℚ :=
  fun a t =>
    if a = e.1 ∧ t = e.2.1 then 1 - (1 - m e.1 e.2.1) * (1 - e.2.2) else m a t

/-- The combination loops of `ArbitrageDetectionEngine.detect`: rules in order,
then each rule's entries, starting from the all-zero table. -/
def orCombineAll (ruleOutputs : List (List (Int × Int × ℚ))) : Int → Int → ℚ :=
  ruleOutputs.foldl (fun m out => out.foldl orStep m) (fun _ _ => 0)

/-- `ArbitrageDetectionEngine.detect` with the two rules `main.py` installs. -/
def engineDetect (pt : ℚ) (tw : Int) (w : Nat) (th : ℚ) (trades : List Trade) :
    Int → Int → ℚ :=
  orCombineAll
    [ruleEntries (roundTripOutput pt tw trades),
     ruleEntries (predictiveOutput w th trades)]

/-! ## main.py: save_to_csv -/

/-- The rows written by `save_to_csv` (main.py lines 174-180): one row per
element of `all_ticks`, holding the tick and the per-agent probabilities
(`combined_suspicions.get(agent, {}).get(tick, 0.0)`); the fixed-decimal
string formatting is not modelled. -/
def saveRows (sus : Int → Int → ℚ) (allTicks allAgents : List Int) :
    List (Int × List ℚ) :=
  allTicks.map (fun t => (t, (sortInts allAgents).map (fun a => sus a t)))

/-- The whole detection pipeline of `main.py`'s `__main__` block on an
in-memory trade list, with the configured default parameters. -/
def runPipeline (trades : List Trade) : List (Int × List ℚ) :=
  saveRows (engineDetect PROFIT_THRESHOLD TIME_WINDOW PREDICT_WINDOW PREDICT_THRESHOLD trades)
    (allTicksSorted trades) (allAgentsSorted trades)

/-! ## main.py: ArbitrageDetectionEngine.__init__ -/

/-- What a rule declares: its name and the ledger fields it reads. -/
structure RuleDecl where
  name : String
  fields : List String
deriving Repr, DecidableEq

def roundTripRuleDecl : RuleDecl :=
  ⟨"RoundTripProfitRule", ["tick", "agent_id", "action", "units", "price"]⟩

def predictiveRuleDecl : RuleDecl :=
  ⟨"PredictiveTradeRule", ["tick", "agent_id", "action", "price"]⟩

/-- The data carried by the `ValueError` raised at engine construction. -/
structure ConfigError where
  ruleName : String
  ruleFields : List String
  allowedFields : List String
deriving Repr, DecidableEq

/-- `rule_fields.issubset(allowed_fields)`. -/
def fieldsOk (r : RuleDecl) (allowed : List String) : Bool :=
  r.fields.all (fun f => allowed.contains f)

/-- `ArbitrageDetectionEngine.__init__` (main.py lines 59-71): check each rule
in order; raise on the first rule whose fields are not all allowed. -/
def engineInit : List RuleDecl → List String → Except ConfigError Unit
  | [], _ => .ok ()
  | r :: rs, allowed =>
    if fieldsOk r allowed then engineInit rs allowed
    else .error ⟨r.name, r.fields, allowed⟩

/-! ## main.py: _parse_value and _load_trades -/

/-- A parsed CSV cell: Python `int`, `float`, or the raw string. -/
inductive PValue
  | int (n : Int)
  | rat (q : ℚ)
  | str (s : String)
deriving Repr, DecidableEq

/-- Digit-string accumulator: `none` on the empty string or any non-digit. -/
def digitsToNat : List Char → Option Nat → Option Nat
  | [], acc => acc
  | c :: cs, acc =>
    if c.isDigit then digitsToNat cs (some ((acc.getD 0) * 10 + (c.toNat - 48)))
    else none

/-- Python `int(value)` on a string: optional sign, then decimal digits. -/
def parsePyInt (s : String) : Option Int :=
  match s.data with
  | '-' :: rest => (digitsToNat rest none).map (fun n => -(n : Int))
  | l => (digitsToNat l none).map (fun n => (n : Int))

/-- Decimal part of Python `float(value)`: digits with an optional point. -/
def parseDecimal (l : List Char) : Option ℚ :=
  let intPart := l.takeWhile (fun c => c ≠ '.')
  let rest := l.dropWhile (fun c => c ≠ '.')
  match rest with
  | [] => (digitsToNat intPart none).map (fun n => (n : ℚ))
  | _ :: frac =>
    match digitsToNat intPart none, digitsToNat frac none with
    | some i, some f => some ((i : ℚ) + (f : ℚ) / (10 : ℚ) ^ frac.length)
    | some i, none => if frac = [] then some ((i : ℚ)) else none
    | none, some f => if intPart = [] then some ((f : ℚ) / (10 : ℚ) ^ frac.length) else none
    | none, none => none

/-- Python `float(value)` on a string (plain decimal literals). -/
def parsePyFloat (s : String) : Option ℚ :=
  match s.data with
  | '-' :: rest => (parseDecimal rest).map Neg.neg
  | l => parseDecimal l

/-- `ArbitrageDetectionEngine._parse_value` (main.py lines 89-101): `tick` and
`units` go through `int(value)` and `price` through `float(value)`, whose
failures raise (the `Except.error` branch); any other field is tried as an
int, the bare `except` falling back to the raw string. -/
def parseValue (field value : String) : Except String PValue :=
  if field = "tick" ∨ field = "units" then
    match parsePyInt value with
    | some n => .ok (.int n)
    | none => .error "invalid literal for int"
  else if field = "price" then
    match parsePyFloat value with
    | some q => .ok (.rat q)
    | none => .error "could not convert string to float"
  else
    match parsePyInt value with
    | some n => .ok (.int n)
    | none => .ok (.str value)

/-- The dict comprehension of `_load_trades` on one CSV row (field/value
pairs): keep the allowed fields, parse each, first exception aborts. -/
def loadRowGo : List (String × String) → Except String (List (String × PValue))
  | [] => .ok []
  | kv :: rest =>
    match parseValue kv.1 kv.2 with
    | .error e => .error e
    | .ok v =>
      match loadRowGo rest with
      | .error e => .error e
      | .ok vs => .ok ((kv.1, v) :: vs)

def loadRow (allowed : List String) (row : List (String × String)) :
    Except String (List (String × PValue)) :=
  loadRowGo (row.filter (fun kv => allowed.contains kv.1))

/-- `ArbitrageDetectionEngine._load_trades` (main.py lines 73-87) over the
already-read CSV rows: one parsed record per row, any exception aborting the
whole batch. -/
def loadTrades (allowed : List String) :
    List (List (String × String)) → Except String (List (List (String × PValue)))
  | [] => .ok []
  | row :: rest =>
    match loadRow allowed row with
    | .error e => .error e
    | .ok tr =>
      match loadTrades allowed rest with
      | .error e => .error e
      | .ok trs => .ok (tr :: trs)

/-! ## agents.py: TraderAgent.step fill loops -/

/-- Outcome of a fill loop, with the price after each one-unit fill recorded
in order as `priceTrace` (ghost data; the source mutates `model.price`). -/
structure FillResult where
  cash : ℚ
  price : ℚ
  holdings : Int
  filled : Nat
  priceTrace : List ℚ
deriving Repr, DecidableEq

/-- The buy loop of `TraderAgent.step` (agents.py lines 30-39): while units
remain, cash covers the current price and the price is positive, pay the
price, gain one holding, and raise the price by the impact step. The inner
`if self.cash < cost: break` of the source is kept although unreachable. -/
def buyFillGo (cash price impact : ℚ) (holdings : Int) : Nat → FillResult
  | 0 => ⟨cash, price, holdings, 0, []⟩
  | rem + 1 =>
    if cash ≥ price ∧ price > 0 then
      if cash < price then ⟨cash, price, holdings, 0, []⟩
      else
        let next := buyFillGo (cash - price) (price + impact) impact (holdings + 1) rem
        ⟨next.cash, next.price, next.holdings, next.filled + 1, (price + impact) :: next.priceTrace⟩
    else ⟨cash, price, holdings, 0, []⟩

/-- The sell loop of `TraderAgent.step` (agents.py lines 41-51): while units
of `min(units, holdings)` remain and holdings are positive, give up one
holding, credit the current price, and lower the price by the impact step,
flooring it at 0. -/
def sellFillGo (cash price impact : ℚ) (holdings : Int) : Nat → FillResult
  | 0 => ⟨cash, price, holdings, 0, []⟩
  | rem + 1 =>
    if holdings > 0 then
      let p' := if price - impact < 0 then 0 else price - impact
      let next := sellFillGo (cash + price) p' impact (holdings - 1) rem
      ⟨next.cash, next.price, next.holdings, next.filled + 1, p' :: next.priceTrace⟩
    else ⟨cash, price, holdings, 0, []⟩

/-- A buy intent of `units` executed against the agent and market state. -/
def tradeBuy (cash : ℚ) (holdings : Int) (price impact : ℚ) (units : Int) : FillResult :=
  buyFillGo cash price impact holdings units.toNat

/-- A sell intent of `units`: the loop bound is `min(units, self.holdings)`. -/
def tradeSell (cash : ℚ) (holdings : Int) (price impact : ℚ) (units : Int) : FillResult :=
  sellFillGo cash price impact holdings (min units holdings).toNat

/-! ## model.py: AssetMarket.step price walk -/

/-- The market state mutated by `AssetMarket.step`, restricted to the fields
the price walk touches. -/
structure MarketState where
  price : ℚ
  last_price : ℚ
  baseline_price : ℚ
  bias_direction : Int
  bias_active : Bool
  tick : Int
deriving Repr, DecidableEq

/-- The price portion of `AssetMarket.step` (model.py lines 50-67 and 78-80):
advance the tick; at a cycle start snapshot the baseline and draw a bias
direction (`dir`, the `random.choice([1, -1])` sample); add the Gaussian
sample `z` plus `0.5 * direction` while biased, flooring the price at 0;
drop the bias when the price leaves the ±10% band around the baseline; force
the bias off at the next 10-tick boundary. -/
def marketStepPrice (s : MarketState) (z : ℚ) (dir : Int) : MarketState :=
  let tick' := s.tick + 1
  let cycleStart := (tick' - 1) % 10 = 0
  let baseline := if cycleStart then s.price else s.baseline_price
  let bdir := if cycleStart then dir else s.bias_direction
  let bact := if cycleStart then true else s.bias_active
  let change := if bact then z + (1/2) * (bdir : ℚ) else z
  let price' := max (s.price + change) 0
  let bact2 :=
    if bact then
      if price' ≥ (11/10) * baseline ∨ price' ≤ (9/10) * baseline then false else bact
    else bact
  let bact3 := if tick' % 10 = 0 then false else bact2
  let bdir3 := if tick' % 10 = 0 then 0 else bdir
  ⟨price', s.price, baseline, bdir3, bact3, tick'⟩

/-! ## strategies.py: decide_action functions

Each strategy's calibration parameters (drawn once at construction within the
documented ranges) appear here as explicit arguments; each function of market
and agent observables returns `none` (hold) or `some (action, units)`. -/

/-- `TrendFollowingStrategy.decide_action` (strategies.py lines 29-43). -/
def trendDecide (threshold sensitivity : ℚ) (price last_price : ℚ) :
    Option (String × Int) :=
  let d := price - last_price
  if |d| < threshold then none
  else
    let units := pyInt (sensitivity * max 0 (|d| - threshold)) + 1
    if d > 0 then some ("buy", units)
    else if d < 0 then some ("sell", units)
    else none

/-- `MeanReversionStrategy.decide_action` (strategies.py lines 53-64). -/
def meanRevDecide (threshold sensitivity : ℚ) (price last_price : ℚ) :
    Option (String × Int) :=
  let d := price - last_price
  if |d| < threshold then none
  else
    let units := pyInt (sensitivity * max 0 (|d| - threshold)) + 1
    if d < 0 then some ("buy", units)
    else if d > 0 then some ("sell", units)
    else none

/-- `MomentumStrategy.decide_action` (strategies.py lines 76-93); `history` is
`model.price_history`, indexed from the end by the lookback. -/
def momentumDecide (lookback : Nat) (threshold sensitivity : ℚ)
    (history : List ℚ) (price : ℚ) : Option (String × Int) :=
  if history.length < lookback + 1 then none
  else
    let old_price := history.getD (history.length - 1 - lookback) 0
    let d := price - old_price
    if |d| < threshold then none
    else
      let units := pyInt (sensitivity * max 0 (|d| - threshold)) + 1
      if d > 0 then some ("buy", units)
      else if d < 0 then some ("sell", units)
      else none

/-- Python `l[-w:]`: the last `w` elements, the whole list when `w = 0`. -/
def lastSlice (l : List ℚ) (w : Nat) : List ℚ :=
  if w = 0 then l else l.drop (l.length - w)

/-- `BreakoutStrategy.decide_action` (strategies.py lines 105-130). -/
def breakoutDecide (window : Nat) (threshold : ℚ) (history : List ℚ)
    (price : ℚ) : Option (String × Int) :=
  if history.length < 2 then none
  else
    let w := min window (history.length - 1)
    let recent := lastSlice history w
    if recent = [] then none
    else
      let hi := listMax recent
      let lo := listMin recent
      if price > hi + threshold then
        let excess := price - (hi + threshold)
        some ("buy", pyInt (1 + excess))
      else if price < lo - threshold then
        let excess := (lo - threshold) - price
        some ("sell", pyInt (1 + excess))
      else none

/-- `ValueInvestingStrategy.decide_action` (strategies.py lines 143-164). -/
def valueDecide (window : Nat) (threshold sensitivity : ℚ) (history : List ℚ)
    (price : ℚ) : Option (String × Int) :=
  if history.length < 2 then none
  else
    let w := min window (history.length - 1)
    let recent := lastSlice history w
    if recent = [] then none
    else
      let fair := recent.sum / (recent.length : ℚ)
      let dev := price - fair
      if |dev| < threshold then none
      else
        let units := pyInt (sensitivity * max 0 (|dev| - threshold)) + 1
        if dev < 0 then some ("buy", units)
        else if dev > 0 then some ("sell", units)
        else none

/-- `ArbitrageStrategy.decide_action` (strategies.py lines 179-222). The first
block fires at a cycle start with an active bias, the second when the bias
was active last tick and has ended; the pair `(action?, units)` mirrors the
two mutated locals, and the returned second component is the updated
`(last_bias_active, last_bias_direction)` memory. -/
def arbDecide (agg : ℚ) (lastAct : Bool) (lastDir : Int) (tick : Int)
    (biasAct : Bool) (biasDir : Int) (price cash : ℚ) (holdings : Int) :
    Option (String × Int) × (Bool × Int) :=
  let s1 : Option String × Int :=
    if (tick - 1) % 10 = 0 ∧ biasAct then
      if biasDir = 1 then
        let affordable := ⌊cash / price⌋
        let u := pyInt (agg * (affordable : ℚ))
        if u > 0 then (some "buy", u) else (none, u)
      else if biasDir = -1 then
        if holdings > 0 then
          let u0 := pyInt (agg * (holdings : ℚ))
          let u := if u0 = 0 then 1 else u0
          (some "sell", u)
        else (none, 0)
      else (none, 0)
    else (none, 0)
  let s2 : Option String × Int :=
    if lastAct ∧ ¬biasAct then
      if lastDir = 1 then
        if holdings > 0 then (some "sell", holdings) else s1
      else if lastDir = -1 then
        let affordable := ⌊cash / price⌋
        let u := pyInt (agg * (affordable : ℚ))
        if u > 0 then (some "buy", u) else (s1.1, u)
      else s1
    else s1
  let memo := (biasAct, if biasAct then biasDir else 0)
  match s2.1 with
  | some a => (some (a, s2.2), memo)
  | none => (none, memo)

/-! ## Analysis-side definitions used in theorem statements -/

/-- The probabilities contributed to cell `(a, t)` by a flat entry list, in
combination order. -/
def cellProbs (a t : Int) (entries : List (Int × Int × ℚ)) : List ℚ :=
  entries.filterMap (fun e => if a = e.1 ∧ t = e.2.1 then some e.2.2 else none)

/-- Whether some trade occurs at tick `t`. -/
def hasTradeAt (trades : List Trade) (t : Int) : Bool :=
  trades.any (fun tr => tr.tick = t)

/-- The price of the last trade (in input order) at tick `t`, if any. -/
def lastPriceAt (trades : List Trade) (t : Int) : Option ℚ :=
  trades.foldl (fun acc tr => if tr.tick = t then some tr.price else acc) none

/-- A ledger with trades at ticks 0 and 2 but none at tick 1: the failing
input for the gapless-output claim. -/
def c1Trades : List Trade :=
  [⟨0, 7, "buy", 1, 10⟩, ⟨2, 7, "sell", 1, 11⟩]

/-! # Theorems -/

/-! ## Engine construction (claim C7) -/

theorem fieldsOk_iff (r : RuleDecl) (allowed : List String) :
    fieldsOk r allowed = true ↔ ∀ f ∈ r.fields, f ∈ allowed := by
  simp [fieldsOk, List.all_eq_true]

/-- C7: engine construction fails with a configuration error exactly when some
rule's declared field set is not a subset of the allowed-field set; the error
carries the offending rule's name, its declared fields (which include the
offending ones) and the allowed set, and when every rule passes, construction
returns successfully, so no field check is ever performed during detection. -/
theorem engineInit_field_check (rules : List RuleDecl) (allowed : List String) :
    (engineInit rules allowed = .ok () ↔ ∀ r ∈ rules, ∀ f ∈ r.fields, f ∈ allowed) ∧
    (∀ e, engineInit rules allowed = .error e →
      e.allowedFields = allowed ∧
      ∃ r ∈ rules, e.ruleName = r.name ∧ e.ruleFields = r.fields ∧
        ∃ f ∈ r.fields, f ∉ allowed) := by
  induction rules with
  | nil => simp [engineInit]
  | cons r rs ih =>
    by_cases hok : fieldsOk r allowed = true
    · have hr : ∀ f ∈ r.fields, f ∈ allowed := (fieldsOk_iff r allowed).mp hok
      constructor
      · rw [show engineInit (r :: rs) allowed = engineInit rs allowed by
          simp [engineInit, hok]]
        constructor
        · intro h x hx
          rcases List.mem_cons.mp hx with rfl | hx
          · exact hr
          · exact ih.1.mp h x hx
        · intro h
          exact ih.1.mpr (fun x hx => h x (List.mem_cons_of_mem r hx))
      · intro e he
        rw [show engineInit (r :: rs) allowed = engineInit rs allowed by
          simp [engineInit, hok]] at he
        obtain ⟨ha, x, hx, hprops⟩ := ih.2 e he
        exact ⟨ha, x, List.mem_cons_of_mem r hx, hprops⟩
    · have hbad : ¬ ∀ f ∈ r.fields, f ∈ allowed := fun h => hok ((fieldsOk_iff r allowed).mpr h)
      have herr : engineInit (r :: rs) allowed = .error ⟨r.name, r.fields, allowed⟩ := by
        simp [engineInit, hok]
      constructor
      · rw [herr]
        constructor
        · intro h; cases h
        · intro h
          exact absurd (fun f hf => h r (List.mem_cons_self r rs) f hf) hbad
      · intro e he
        rw [herr] at he
        cases he
        push_neg at hbad
        obtain ⟨f, hf, hfn⟩ := hbad
        exact ⟨rfl, r, List.mem_cons_self r rs, rfl, rfl, f, hf, hfn⟩

/-- C7 witness: the two rules `main.py` installs declare only allowed fields,
so the engine constructs successfully on the default configuration. -/
theorem engineInit_field_check_witness :
    engineInit [roundTripRuleDecl, predictiveRuleDecl] ALLOWED_FIELDS = .ok () :=
  (engineInit_field_check [roundTripRuleDecl, predictiveRuleDecl] ALLOWED_FIELDS).1.mpr
    (by decide)

/-! ## Ledger ingestion (claim C8) -/

/-- C8 counterexample: a tick value that fails to parse raises and aborts the
whole batch (it is not replaced by 0.0), and a non-core field that fails to
parse is kept as its raw string, not replaced by 0.0. -/
theorem parse_failure_not_defaulted :
    loadTrades ALLOWED_FIELDS
        [[("tick", "abc"), ("agent_id", "1"), ("action", "buy"),
          ("units", "5"), ("price", "10")]]
      = .error "invalid literal for int" ∧
    parseValue "volatility" "abc" = .ok (.str "abc") := by
  exact ⟨rfl, rfl⟩

/-- C8 amended: a parse failure on `tick`, `units` or `price` raises and
aborts the batch; for every other ingested field, an unparseable value is
kept as its raw string (never replaced by 0.0) and ingestion continues. -/
theorem parse_abort_behavior :
    (∀ f v : String, f ≠ "tick" → f ≠ "units" → f ≠ "price" →
      (∃ pv, parseValue f v = .ok pv) ∧
      (parsePyInt v = none → parseValue f v = .ok (.str v))) ∧
    (∀ v : String, parsePyInt v = none →
      parseValue "tick" v = .error "invalid literal for int" ∧
      parseValue "units" v = .error "invalid literal for int") ∧
    (∀ v : String, parsePyFloat v = none →
      parseValue "price" v = .error "could not convert string to float") ∧
    (∀ (allowed : List String) (rest : List (List (String × String)))
        (row : List (String × String)) (e : String),
      loadRow allowed row = .error e →
      loadTrades allowed (row :: rest) = .error e) := by
  refine ⟨?_, ?_, ?_, ?_⟩
  · intro f v h1 h2 h3
    constructor
    · cases hp : parsePyInt v with
      | none => exact ⟨.str v, by simp [parseValue, h1, h2, h3, hp]⟩
      | some n => exact ⟨.int n, by simp [parseValue, h1, h2, h3, hp]⟩
    · intro hp
      simp [parseValue, h1, h2, h3, hp]
  · intro v hp
    constructor <;> simp [parseValue, hp]
  · intro v hp
    simp [parseValue, hp]
  · intro allowed rest row e he
    simp [loadTrades, he]

/-- C8 amended witness: an unparseable tick aborts with the int error. -/
theorem parse_abort_behavior_witness :
    parseValue "tick" "xyz" = .error "invalid literal for int" :=
  (parse_abort_behavior.2.1 "xyz" rfl).1

/-! ## The probabilistic-OR combiner (claim C2) -/

theorem orStep_fold_cell :
    ∀ (entries : List (Int × Int × ℚ)) (m : Int → Int → ℚ) (a t : Int),
      (entries.foldl orStep m) a t =
        1 - (1 - m a t) * ((cellProbs a t entries).map (fun p => 1 - p)).prod
  | [], m, a, t => by simp [cellProbs]
  | e :: es, m, a, t => by
    rw [List.foldl_cons, orStep_fold_cell es]
    by_cases h : a = e.1 ∧ t = e.2.1
    · obtain ⟨h1, h2⟩ := h
      simp only [cellProbs, List.filterMap_cons, h1, h2, and_self, if_pos, orStep,
        if_true, List.map_cons, List.prod_cons]
      rw [← h1, ← h2]
      ring
    · simp only [cellProbs, List.filterMap_cons, if_neg h, orStep]

theorem orCombineAll_eq_flatten_fold :
    ∀ (outs : List (List (Int × Int × ℚ))) (m : Int → Int → ℚ),
      outs.foldl (fun acc out => out.foldl orStep acc) m = outs.flatten.foldl orStep m
  | [], _ => rfl
  | o :: os, m => by
    rw [List.foldl_cons, orCombineAll_eq_flatten_fold os, List.flatten_cons,
      List.foldl_append]

theorem prod_one_sub_bounds (l : List ℚ) (h : ∀ p ∈ l, 0 ≤ p ∧ p ≤ 1) :
    0 ≤ ((l.map (fun p => 1 - p)).prod) ∧ ((l.map (fun p => 1 - p)).prod) ≤ 1 := by
  induction l with
  | nil => simp
  | cons q l ih =>
    obtain ⟨hq0, hq1⟩ := h q (List.mem_cons_self q l)
    obtain ⟨hl0, hl1⟩ := ih (fun p hp => h p (List.mem_cons_of_mem q hp))
    rw [List.map_cons, List.prod_cons]
    constructor
    · exact mul_nonneg (by linarith) hl0
    · calc (1 - q) * (l.map (fun p => 1 - p)).prod ≤ 1 * 1 :=
            mul_le_mul (by linarith) hl1 hl0 (by norm_num)
        _ = 1 := by norm_num

theorem cellProbs_mem (a t : Int) (es : List (Int × Int × ℚ)) (p : ℚ)
    (hp : p ∈ cellProbs a t es) : ∃ x ∈ es, p = x.2.2 := by
  obtain ⟨x, hx, hxe⟩ := List.mem_filterMap.mp hp
  refine ⟨x, hx, ?_⟩
  by_cases hc : a = x.1 ∧ t = x.2.1
  · rw [if_pos hc] at hxe
    cases hxe
    rfl
  · rw [if_neg hc] at hxe
    cases hxe

theorem prod_one_sub_nonneg (l : List ℚ) (h : ∀ p ∈ l, p ≤ 1) :
    0 ≤ ((l.map (fun p => 1 - p)).prod) := by
  induction l with
  | nil => simp
  | cons q l ih =>
    rw [List.map_cons, List.prod_cons]
    exact mul_nonneg (by linarith [h q (List.mem_cons_self q l)])
      (ih (fun p hp => h p (List.mem_cons_of_mem q hp)))

/-- C2: the combined probability of a cell equals `1 − ∏(1 − p_i)` over the
rule outputs contributing to that cell (so 0.0 when there are none); when all
contributing scores lie in [0,1] the combined value lies in [0,1]; and the
combined value is monotonically non-decreasing in each contributing score. -/
theorem combine_probabilistic_or (outs : List (List (Int × Int × ℚ))) (a t : Int) :
    (orCombineAll outs a t =
      1 - ((cellProbs a t outs.flatten).map (fun p => 1 - p)).prod) ∧
    (cellProbs a t outs.flatten = [] → orCombineAll outs a t = 0) ∧
    ((∀ e ∈ outs.flatten, 0 ≤ e.2.2 ∧ e.2.2 ≤ 1) →
      0 ≤ orCombineAll outs a t ∧ orCombineAll outs a t ≤ 1) ∧
    (∀ (pre post : List (Int × Int × ℚ)) (p p' : ℚ),
      (∀ e ∈ pre ++ post, 0 ≤ e.2.2 ∧ e.2.2 ≤ 1) →
      0 ≤ p → p ≤ p' → p' ≤ 1 →
      orCombineAll [pre ++ (a, t, p) :: post] a t ≤
        orCombineAll [pre ++ (a, t, p') :: post] a t) := by
  have hmain : orCombineAll outs a t =
      1 - ((cellProbs a t outs.flatten).map (fun p => 1 - p)).prod := by
    rw [orCombineAll, orCombineAll_eq_flatten_fold, orStep_fold_cell]
    norm_num
  refine ⟨hmain, ?_, ?_, ?_⟩
  · intro hempty
    rw [hmain, hempty]
    simp
  · intro hb
    have hcb : ∀ p ∈ cellProbs a t outs.flatten, 0 ≤ p ∧ p ≤ 1 := by
      intro p hp
      obtain ⟨x, hx, rfl⟩ := cellProbs_mem a t _ p hp
      exact hb x hx
    obtain ⟨h0, h1⟩ := prod_one_sub_bounds _ hcb
    rw [hmain]
    constructor <;> linarith
  · intro pre post p p' hb hp0 hpp hp1
    have eq1 : orCombineAll [pre ++ (a, t, p) :: post] a t =
        1 - ((cellProbs a t (pre ++ (a, t, p) :: post)).map (fun q => 1 - q)).prod := by
      rw [orCombineAll, orCombineAll_eq_flatten_fold]
      simp only [List.flatten, List.append_nil]
      rw [orStep_fold_cell]
      norm_num
    have eq2 : orCombineAll [pre ++ (a, t, p') :: post] a t =
        1 - ((cellProbs a t (pre ++ (a, t, p') :: post)).map (fun q => 1 - q)).prod := by
      rw [orCombineAll, orCombineAll_eq_flatten_fold]
      simp only [List.flatten, List.append_nil]
      rw [orStep_fold_cell]
      norm_num
    rw [eq1, eq2]
    have hsplit : ∀ q : ℚ, cellProbs a t (pre ++ (a, t, q) :: post) =
        cellProbs a t pre ++ q :: cellProbs a t post := by
      intro q
      simp [cellProbs, List.filterMap_append, List.filterMap_cons]
    rw [hsplit, hsplit]
    simp only [List.map_append, List.map_cons, List.prod_append, List.prod_cons]
    have hA : 0 ≤ ((cellProbs a t pre).map (fun q => 1 - q)).prod := by
      refine prod_one_sub_nonneg _ (fun q hq => ?_)
      obtain ⟨x, hx, rfl⟩ := cellProbs_mem a t pre q hq
      exact (hb x (List.mem_append_left post hx)).2
    have hB : 0 ≤ ((cellProbs a t post).map (fun q => 1 - q)).prod := by
      refine prod_one_sub_nonneg _ (fun q hq => ?_)
      obtain ⟨x, hx, rfl⟩ := cellProbs_mem a t post q hq
      exact (hb x (List.mem_append_right pre hx)).2
    have hinner : (1 - p') * ((cellProbs a t post).map (fun q => 1 - q)).prod ≤
        (1 - p) * ((cellProbs a t post).map (fun q => 1 - q)).prod :=
      mul_le_mul_of_nonneg_right (by linarith) hB
    have houter := mul_le_mul_of_nonneg_left hinner hA
    linarith

/-- C2 witness: two rule scores 1/2 and 1/4 for one cell combine to a value
inside [0,1] (namely 5/8). -/
theorem combine_probabilistic_or_witness :
    0 ≤ orCombineAll [[((1 : Int), (4 : Int), (1/2 : ℚ))], [(1, 4, 1/4)]] 1 4 ∧
    orCombineAll [[((1 : Int), (4 : Int), (1/2 : ℚ))], [(1, 4, 1/4)]] 1 4 ≤ 1 :=
  (combine_probabilistic_or [[(1, 4, 1/2)], [(1, 4, 1/4)]] 1 4).2.2.1
    (by
      intro e he
      have h2 : e = ((1 : Int), (4 : Int), (1/2 : ℚ)) ∨ e = (1, 4, 1/4) := by
        simpa [List.flatten] using he
      rcases h2 with rfl | rfl <;> norm_num)

/-! ## Execution fills (claims C3 and C4) -/

theorem sellFillGo_spec : ∀ (fuel : Nat) (cash price impact : ℚ) (holdings : Int),
    0 ≤ price → (fuel : Int) ≤ holdings →
    (sellFillGo cash price impact holdings fuel).filled = fuel ∧
    (sellFillGo cash price impact holdings fuel).holdings = holdings - fuel ∧
    cash ≤ (sellFillGo cash price impact holdings fuel).cash ∧
    0 ≤ (sellFillGo cash price impact holdings fuel).price
  | 0, cash, price, impact, holdings, hp, _ => by
    simpa [sellFillGo] using hp
  | fuel + 1, cash, price, impact, holdings, hp, hf => by
    have hpos : holdings > 0 := by omega
    have hp' : (0 : ℚ) ≤ (if price - impact < 0 then 0 else price - impact) := by
      split
      · exact le_refl 0
      · linarith [not_lt.mp (by assumption : ¬ price - impact < 0)]
    have hf' : (fuel : Int) ≤ holdings - 1 := by omega
    obtain ⟨ih1, ih2, ih3, ih4⟩ :=
      sellFillGo_spec fuel (cash + price) (if price - impact < 0 then 0 else price - impact)
        impact (holdings - 1) hp' hf'
    refine ⟨?_, ?_, ?_, ?_⟩
    · simp only [sellFillGo, if_pos hpos]
      rw [ih1]
    · simp only [sellFillGo, if_pos hpos]
      rw [ih2]
      push_cast
      ring
    · simp only [sellFillGo, if_pos hpos]
      linarith
    · simp only [sellFillGo, if_pos hpos]
      exact ih4

theorem buyFillGo_spec : ∀ (fuel : Nat) (cash price impact : ℚ) (holdings : Int),
    0 ≤ cash →
    (buyFillGo cash price impact holdings fuel).filled ≤ fuel ∧
    0 ≤ (buyFillGo cash price impact holdings fuel).cash ∧
    (buyFillGo cash price impact holdings fuel).holdings =
      holdings + (buyFillGo cash price impact holdings fuel).filled ∧
    ((buyFillGo cash price impact holdings fuel).filled < fuel →
      ¬((buyFillGo cash price impact holdings fuel).cash ≥
          (buyFillGo cash price impact holdings fuel).price ∧
        (buyFillGo cash price impact holdings fuel).price > 0))
  | 0, cash, price, impact, holdings, hc => by
    simp [buyFillGo, hc]
  | fuel + 1, cash, price, impact, holdings, hc => by
    by_cases hcond : cash ≥ price ∧ price > 0
    · have hncl : ¬ cash < price := not_lt.mpr hcond.1
      have hc' : 0 ≤ cash - price := by linarith [hcond.1]
      obtain ⟨ih1, ih2, ih3, ih4⟩ :=
        buyFillGo_spec fuel (cash - price) (price + impact) impact (holdings + 1) hc'
      refine ⟨?_, ?_, ?_, ?_⟩
      · simp only [buyFillGo, if_pos hcond, if_neg hncl]
        omega
      · simp only [buyFillGo, if_pos hcond, if_neg hncl]
        exact ih2
      · simp only [buyFillGo, if_pos hcond, if_neg hncl]
        rw [ih3]
        push_cast
        ring
      · simp only [buyFillGo, if_pos hcond, if_neg hncl]
        intro hlt
        exact ih4 (by omega)
    · refine ⟨?_, ?_, ?_, ?_⟩ <;> simp only [buyFillGo, if_neg hcond]
      · omega
      · exact hc
      · simp
      · intro _
        exact hcond

/-- C3: an executed sell intent fills at most the prior holdings (exactly
`min(units, holdings)`, a partial fill rather than a failure), an executed
buy intent's cumulative cost never exceeds the prior cash (the buy stops
exactly when the next unit is unaffordable or the price is not positive),
and after either fill sequence the agent's cash and holdings are still
non-negative. -/
theorem trader_fill_constraints (cash price impact : ℚ) (holdings units : Int)
    (hc : 0 ≤ cash) (hh : 0 ≤ holdings) (hp : 0 ≤ price) :
    (let r := tradeSell cash holdings price impact units
     (r.filled : Int) ≤ holdings ∧ r.holdings = holdings - (r.filled : Int) ∧
     0 ≤ r.holdings ∧ cash ≤ r.cash ∧ 0 ≤ r.cash ∧
     r.filled = (min units holdings).toNat) ∧
    (let b := tradeBuy cash holdings price impact units
     b.filled ≤ units.toNat ∧ 0 ≤ b.cash ∧ cash - b.cash ≤ cash ∧
     b.holdings = holdings + (b.filled : Int) ∧ 0 ≤ b.holdings ∧
     (b.filled < units.toNat → ¬(b.cash ≥ b.price ∧ b.price > 0))) := by
  constructor
  · have hf : (((min units holdings).toNat : Int)) ≤ holdings := by omega
    obtain ⟨h1, h2, h3, _⟩ :=
      sellFillGo_spec (min units holdings).toNat cash price impact holdings hp hf
    dsimp only [tradeSell]
    rw [h1, h2]
    refine ⟨hf, rfl, by omega, h3, le_trans hc h3, rfl⟩
  · obtain ⟨h1, h2, h3, h4⟩ := buyFillGo_spec units.toNat cash price impact holdings hc
    dsimp only [tradeBuy]
    refine ⟨h1, h2, by linarith, h3, ?_, h4⟩
    rw [h3]
    omega

/-- C3 witness: the specification's own scenario, cash 1000, price 100,
impact 1: a buy of 5 units leaves non-negative cash and the sell constraints
hold for a sell of 5 units against 5 holdings. -/
theorem trader_fill_constraints_witness :
    ((tradeSell 1000 5 100 1 5).filled : Int) ≤ 5 ∧
    0 ≤ (tradeBuy 1000 0 100 1 5).cash :=
  ⟨(trader_fill_constraints 1000 100 1 5 5 (by norm_num) (by norm_num) (by norm_num)).1.1,
   (trader_fill_constraints 1000 100 1 0 5 (by norm_num) (by norm_num) (by norm_num)).2.2.1⟩

theorem buyFillGo_price_nonneg : ∀ (fuel : Nat) (cash price impact : ℚ) (holdings : Int),
    0 ≤ price → 0 ≤ impact →
    (∀ p ∈ (buyFillGo cash price impact holdings fuel).priceTrace, 0 ≤ p) ∧
    0 ≤ (buyFillGo cash price impact holdings fuel).price
  | 0, cash, price, impact, holdings, hp, _ => by
    simpa [buyFillGo] using hp
  | fuel + 1, cash, price, impact, holdings, hp, hi => by
    by_cases hcond : cash ≥ price ∧ price > 0
    · have hncl : ¬ cash < price := not_lt.mpr hcond.1
      have hp' : 0 ≤ price + impact := by linarith
      obtain ⟨ih1, ih2⟩ :=
        buyFillGo_price_nonneg fuel (cash - price) (price + impact) impact (holdings + 1) hp' hi
      constructor
      · simp only [buyFillGo, if_pos hcond, if_neg hncl, List.mem_cons]
        rintro p (rfl | hpmem)
        · exact hp'
        · exact ih1 p hpmem
      · simp only [buyFillGo, if_pos hcond, if_neg hncl]
        exact ih2
    · simp only [buyFillGo, if_neg hcond]
      exact ⟨by simp, hp⟩

theorem sellFillGo_price_nonneg : ∀ (fuel : Nat) (cash price impact : ℚ) (holdings : Int),
    0 ≤ price →
    (∀ p ∈ (sellFillGo cash price impact holdings fuel).priceTrace, 0 ≤ p) ∧
    0 ≤ (sellFillGo cash price impact holdings fuel).price
  | 0, cash, price, impact, holdings, hp => by
    simpa [sellFillGo] using hp
  | fuel + 1, cash, price, impact, holdings, hp => by
    have hp' : (0 : ℚ) ≤ (if price - impact < 0 then 0 else price - impact) := by
      split
      · exact le_refl 0
      · linarith [not_lt.mp (by assumption : ¬ price - impact < 0)]
    by_cases hpos : holdings > 0
    · obtain ⟨ih1, ih2⟩ :=
        sellFillGo_price_nonneg fuel (cash + price)
          (if price - impact < 0 then 0 else price - impact) impact (holdings - 1) hp'
      constructor
      · simp only [sellFillGo, if_pos hpos, List.mem_cons]
        rintro p (rfl | hpmem)
        · exact hp'
        · exact ih1 p hpmem
      · simp only [sellFillGo, if_pos hpos]
        exact ih2
    · simp only [sellFillGo, if_neg hpos]
      exact ⟨by simp, hp⟩

/-- C4: the market price is never negative: the stochastic per-tick update
(bias drift included) floors the price at 0 unconditionally, and starting
from a non-negative price (with a non-negative impact step for buys), the
price after every intermediate one-unit fill of a buy or sell is ≥ 0. -/
theorem price_floor_invariant :
    (∀ (s : MarketState) (z : ℚ) (dir : Int), 0 ≤ (marketStepPrice s z dir).price) ∧
    (∀ (cash price impact : ℚ) (holdings : Int) (fuel : Nat), 0 ≤ price → 0 ≤ impact →
      (∀ p ∈ (buyFillGo cash price impact holdings fuel).priceTrace, 0 ≤ p) ∧
      0 ≤ (buyFillGo cash price impact holdings fuel).price) ∧
    (∀ (cash price impact : ℚ) (holdings : Int) (fuel : Nat), 0 ≤ price →
      (∀ p ∈ (sellFillGo cash price impact holdings fuel).priceTrace, 0 ≤ p) ∧
      0 ≤ (sellFillGo cash price impact holdings fuel).price) := by
  refine ⟨?_, ?_, ?_⟩
  · intro s z dir
    simp only [marketStepPrice]
    exact le_max_right _ 0
  · intro cash price impact holdings fuel hp hi
    exact buyFillGo_price_nonneg fuel cash price impact holdings hp hi
  · intro cash price impact holdings fuel hp
    exact sellFillGo_price_nonneg fuel cash price impact holdings hp

/-- C4 witness: from price 100 and impact 1, the final price after a 5-unit
buy fill is still non-negative. -/
theorem price_floor_invariant_witness :
    0 ≤ (buyFillGo 1000 100 1 0 5).price :=
  (price_floor_invariant.2.1 1000 100 1 0 5 (by norm_num) (by norm_num)).2

/-! ## Suspicion-dict lemmas (for claims C5 and C6) -/

theorem find_key_map_other :
    ∀ (l : List (Int × ℚ)) (t u : Int) (v : ℚ), u ≠ t →
      List.find? (fun x => x.1 = u) (l.map (fun e => if e.1 = t then (t, v) else e)) =
        List.find? (fun x => x.1 = u) l
  | [], _, _, _, _ => rfl
  | e :: l, t, u, v, hu => by
    by_cases he : e.1 = t
    · rw [List.map_cons, if_pos he]
      rw [List.find?_cons_of_neg _ (by simp [Ne.symm hu]),
        List.find?_cons_of_neg _ (by simp [he, Ne.symm hu])]
      exact find_key_map_other l t u v hu
    · rw [List.map_cons, if_neg he]
      by_cases heu : e.1 = u
      · rw [List.find?_cons_of_pos _ (by simp [heu]), List.find?_cons_of_pos _ (by simp [heu])]
      · rw [List.find?_cons_of_neg _ (by simp [heu]), List.find?_cons_of_neg _ (by simp [heu])]
        exact find_key_map_other l t u v hu

theorem find_key_map_self :
    ∀ (l : List (Int × ℚ)) (t : Int) (v : ℚ), l.any (fun x => x.1 = t) = true →
      List.find? (fun x => x.1 = t) (l.map (fun e => if e.1 = t then (t, v) else e)) =
        some (t, v)
  | [], _, _, h => by simp at h
  | e :: l, t, v, h => by
    by_cases he : e.1 = t
    · rw [List.map_cons, if_pos he, List.find?_cons_of_pos _ (by simp)]
    · rw [List.map_cons, if_neg he, List.find?_cons_of_neg _ (by simp [he])]
      refine find_key_map_self l t v ?_
      rw [List.any_cons] at h
      simpa [he] using h

theorem susGet_susPut_self (l : List (Int × ℚ)) (t : Int) (v : ℚ) :
    susGet (susPut l t v) t = v := by
  unfold susPut
  by_cases ha : l.any (fun e => e.1 = t) = true
  · rw [if_pos ha]
    unfold susGet
    rw [find_key_map_self l t v ha]
  · rw [if_neg ha]
    unfold susGet
    rw [List.find?_append]
    have hnone : List.find? (fun e => e.1 = t) l = none := by
      rw [List.find?_eq_none]
      intro x hx hxt
      exact ha (List.any_eq_true.mpr ⟨x, hx, hxt⟩)
    rw [hnone]
    simp

theorem susGet_susPut_other (l : List (Int × ℚ)) (t u : Int) (v : ℚ) (hu : u ≠ t) :
    susGet (susPut l t v) u = susGet l u := by
  unfold susPut
  by_cases ha : l.any (fun e => e.1 = t) = true
  · rw [if_pos ha]
    unfold susGet
    rw [find_key_map_other l t u v hu]
  · rw [if_neg ha]
    unfold susGet
    rw [List.find?_append]
    have h2 : List.find? (fun e => e.1 = u) [(t, v)] = none := by
      rw [List.find?_eq_none]
      intro x hx
      simp only [List.mem_singleton] at hx
      subst hx
      simp [Ne.symm hu]
    rw [h2]
    cases List.find? (fun e => e.1 = u) l <;> rfl

/-! ## RoundTripProfitRule state invariants (claims C5 and C6) -/

theorem rtStep_invariant (pt : ℚ) (tw : Int) (s : RTState) (sus : List (Int × ℚ))
    (tr : Trade) (htp : 0 ≤ tr.price) (htu : 0 ≤ tr.units)
    (h1 : 0 ≤ s.position) (h2 : s.entry_units = s.position) (h3 : 0 ≤ s.entry_cost) :
    0 ≤ (rtStep pt tw (s, sus) tr).1.position ∧
    (rtStep pt tw (s, sus) tr).1.entry_units = (rtStep pt tw (s, sus) tr).1.position ∧
    0 ≤ (rtStep pt tw (s, sus) tr).1.entry_cost := by
  have hmul : 0 ≤ (tr.units : ℚ) * tr.price :=
    mul_nonneg (by exact_mod_cast htu) htp
  by_cases hp0 : s.position = 0
  · by_cases hb : pyLower tr.action = "buy"
    · simp only [rtStep, if_pos hp0, if_pos hb]
      refine ⟨by omega, by omega, hmul⟩
    · simp only [rtStep, if_pos hp0, if_neg hb]
      exact ⟨h1, h2, h3⟩
  · by_cases hb : pyLower tr.action = "buy"
    · simp only [rtStep, if_neg hp0, if_pos hb]
      refine ⟨by omega, by omega, by linarith⟩
    · by_cases hsell : pyLower tr.action = "sell"
      · by_cases hlt : tr.units < s.position
        · have heu : s.entry_units > 0 := by omega
          simp only [rtStep, if_neg hp0, if_neg hb, if_pos hsell, if_pos hlt, if_pos heu]
          refine ⟨by omega, by omega, ?_⟩
          have heuQ : (0 : ℚ) < (s.entry_units : ℚ) := by exact_mod_cast heu
          have hdiv : 0 ≤ s.entry_cost / (s.entry_units : ℚ) := div_nonneg h3 (le_of_lt heuQ)
          have huleeu : (tr.units : ℚ) ≤ (s.entry_units : ℚ) := by
            have : tr.units ≤ s.entry_units := by omega
            exact_mod_cast this
          have hle : s.entry_cost / (s.entry_units : ℚ) * (tr.units : ℚ) ≤
              s.entry_cost / (s.entry_units : ℚ) * (s.entry_units : ℚ) :=
            mul_le_mul_of_nonneg_left huleeu hdiv
          have hcancel : s.entry_cost / (s.entry_units : ℚ) * (s.entry_units : ℚ) =
              s.entry_cost := div_mul_cancel₀ _ (ne_of_gt heuQ)
          linarith
        · by_cases heq : tr.units = s.position
          · simp only [rtStep, if_neg hp0, if_neg hb, if_pos hsell, if_neg hlt, if_pos heq]
            exact ⟨le_refl 0, rfl, le_refl 0⟩
          · simp only [rtStep, if_neg hp0, if_neg hb, if_pos hsell, if_neg hlt, if_neg heq]
            exact ⟨h1, h2, h3⟩
      · simp only [rtStep, if_neg hp0, if_neg hb, if_neg hsell]
        exact ⟨h1, h2, h3⟩

theorem rtFold_invariant (pt : ℚ) (tw : Int) :
    ∀ (l : List Trade) (acc : RTState × List (Int × ℚ)),
      (∀ x ∈ l, 0 ≤ x.price ∧ 0 ≤ x.units) →
      0 ≤ acc.1.position → acc.1.entry_units = acc.1.position → 0 ≤ acc.1.entry_cost →
      0 ≤ (l.foldl (rtStep pt tw) acc).1.position ∧
      (l.foldl (rtStep pt tw) acc).1.entry_units =
        (l.foldl (rtStep pt tw) acc).1.position ∧
      0 ≤ (l.foldl (rtStep pt tw) acc).1.entry_cost
  | [], _, _, h1, h2, h3 => ⟨h1, h2, h3⟩
  | tr :: l, acc, hl, h1, h2, h3 => by
    obtain ⟨hp, hu⟩ := hl tr (List.mem_cons_self tr l)
    obtain ⟨i1, i2, i3⟩ := rtStep_invariant pt tw acc.1 acc.2 tr hp hu h1 h2 h3
    rw [List.foldl_cons]
    exact rtFold_invariant pt tw l (rtStep pt tw acc tr)
      (fun x hx => hl x (List.mem_cons_of_mem tr hx)) i1 i2 i3

/-- C6: with a non-negative profit threshold and a ledger of non-negative
prices and trade sizes, a step of the round-trip state machine changes the
suspicion dict only at a full-close sell whose total realized profit is
strictly positive; in particular no tick is ever flagged for a round trip
whose realized profit is ≤ 0. -/
theorem rt_flag_requires_positive_profit (pt : ℚ) (tw : Int)
    (pre post : List Trade) (tr : Trade)
    (hpt : 0 ≤ pt)
    (hts : ∀ x ∈ pre ++ tr :: post, 0 ≤ x.price ∧ 0 ≤ x.units)
    (hneq : (rtStep pt tw (pre.foldl (rtStep pt tw) (rtInit, [])) tr).2 ≠
      (pre.foldl (rtStep pt tw) (rtInit, [])).2) :
    pyLower tr.action = "sell" ∧
    tr.units = (pre.foldl (rtStep pt tw) (rtInit, [])).1.position ∧
    0 < (pre.foldl (rtStep pt tw) (rtInit, [])).1.position ∧
    0 < (pre.foldl (rtStep pt tw) (rtInit, [])).1.realized_profit +
        (tr.price - (pre.foldl (rtStep pt tw) (rtInit, [])).1.entry_cost /
            ((pre.foldl (rtStep pt tw) (rtInit, [])).1.entry_units : ℚ)) *
          (tr.units : ℚ) := by
  obtain ⟨h1, h2, h3⟩ := rtFold_invariant pt tw pre (rtInit, [])
    (fun x hx => hts x (List.mem_append_left _ hx))
    (by simp [rtInit]) (by simp [rtInit]) (by simp [rtInit])
  set acc := pre.foldl (rtStep pt tw) (rtInit, []) with hacc
  by_cases hp0 : acc.1.position = 0
  · exfalso
    by_cases hb : pyLower tr.action = "buy" <;>
      simp [rtStep, hp0, hb] at hneq
  · by_cases hb : pyLower tr.action = "buy"
    · exfalso
      simp [rtStep, hp0, hb] at hneq
    · by_cases hsell : pyLower tr.action = "sell"
      · by_cases hlt : tr.units < acc.1.position
        · exfalso
          simp [rtStep, hp0, hb, hsell, hlt] at hneq
        · by_cases heq : tr.units = acc.1.position
          · have hpos : 0 < acc.1.position := by omega
            have heu : acc.1.entry_units > 0 := by omega
            refine ⟨hsell, heq, hpos, ?_⟩
            by_cases hrp : acc.1.realized_profit +
                (tr.price - acc.1.entry_cost / (acc.1.entry_units : ℚ)) * (tr.units : ℚ) >
                pt * (acc.1.entry_cost / (acc.1.entry_units : ℚ)) * (tr.units : ℚ)
            · have hbound : 0 ≤ pt * (acc.1.entry_cost / (acc.1.entry_units : ℚ)) *
                  (tr.units : ℚ) := by
                have heuQ : (0 : ℚ) < (acc.1.entry_units : ℚ) := by exact_mod_cast heu
                have htuQ : (0 : ℚ) ≤ (tr.units : ℚ) := by
                  have : (0 : Int) ≤ tr.units := by omega
                  exact_mod_cast this
                exact mul_nonneg (mul_nonneg hpt (div_nonneg h3 (le_of_lt heuQ))) htuQ
              linarith
            · exfalso
              rw [heq] at hrp
              simp [rtStep, hp0, hb, hsell, hlt, heq, heu, hrp] at hneq
          · exfalso
            simp [rtStep, hp0, hb, hsell, hlt, heq] at hneq
      · exfalso
        simp [rtStep, hp0, hb, hsell] at hneq

/-- C6 witness: a profitable one-tick round trip (buy 5 at 10, sell 5 at 20)
does change the suspicion dict, and the theorem applies to it: the open
position before the close is positive. -/
theorem rt_flag_requires_positive_profit_witness :
    0 < (List.foldl (rtStep PROFIT_THRESHOLD TIME_WINDOW) (rtInit, [])
        [({ tick := 0, agent_id := 1, action := "buy", units := 5, price := 10 } : Trade)]).1.position :=
  (rt_flag_requires_positive_profit PROFIT_THRESHOLD TIME_WINDOW
      [⟨0, 1, "buy", 5, 10⟩] [] ⟨1, 1, "sell", 5, 20⟩ (le_refl 0)
      (by intro x hx; fin_cases hx <;> exact ⟨by norm_num, by norm_num⟩)
      (by norm_num +decide [rtStep, rtInit, pyLower, susGet, susPut, PROFIT_THRESHOLD,
        TIME_WINDOW])).2.2.1

/-- C5 counterexample: an agent buys 5 units at tick 0 and sells 10 units
(more than the 5-unit open position) at tick 1 at double the price — a
profitable round trip well inside the default time window, which the claim
says must flag the closing tick at confidence 1.0.  The rule flags nothing:
the sell matches neither the `units < position` nor the `units == position`
branch, so it is silently ignored. -/
theorem rt_oversize_sell_ignored_cex :
    roundTripAgent PROFIT_THRESHOLD TIME_WINDOW
        [⟨0, 1, "buy", 5, 10⟩, ⟨1, 1, "sell", 10, 20⟩] = [] ∧
    susGet (roundTripAgent PROFIT_THRESHOLD TIME_WINDOW
        [⟨0, 1, "buy", 5, 10⟩, ⟨1, 1, "sell", 10, 20⟩]) 1 ≠ 1 := by
  have h : roundTripAgent PROFIT_THRESHOLD TIME_WINDOW
      [⟨0, 1, "buy", 5, 10⟩, ⟨1, 1, "sell", 10, 20⟩] = [] := by
    norm_num +decide [roundTripAgent, sortByTick, sortedInsert, rtStep, rtInit, pyLower,
      PROFIT_THRESHOLD, TIME_WINDOW]
  refine ⟨h, ?_⟩
  rw [h]
  norm_num [susGet]

/-- C5 amended: while a position is open, a sell of units exactly equal to
the remaining position performs the full close — the final profit is
realized, and the closing tick is flagged with `max(old, 1.0)` and the entry
tick with `max(old, 0.5)` if and only if the realized profit exceeds
`profit_threshold × cost_basis` and `close_tick − entry_tick ≤ time_window`;
the state then resets to Flat.  A sell of units strictly greater than the
remaining position, however, matches neither sell branch and is ignored:
state and suspicions are left unchanged and no close occurs. -/
theorem rt_full_close_exact (pt : ℚ) (tw : Int) (s : RTState) (sus : List (Int × ℚ))
    (tr : Trade) (et : Int)
    (hsell : pyLower tr.action = "sell")
    (hpos : 0 < s.position)
    (hinv : s.entry_units = s.position)
    (het : s.entry_tick = some et)
    (hne : et ≠ tr.tick) :
    (tr.units = s.position →
      (rtStep pt tw (s, sus) tr).1 = rtInit ∧
      (if s.realized_profit + (tr.price - s.entry_cost / (s.entry_units : ℚ)) * (tr.units : ℚ) >
            pt * s.entry_cost ∧ tr.tick - et ≤ tw then
         susGet (rtStep pt tw (s, sus) tr).2 tr.tick = max (susGet sus tr.tick) 1 ∧
         susGet (rtStep pt tw (s, sus) tr).2 et = max (susGet sus et) (1/2)
       else (rtStep pt tw (s, sus) tr).2 = sus)) ∧
    (s.position < tr.units → rtStep pt tw (s, sus) tr = (s, sus)) := by
  have hp0 : ¬ s.position = 0 := by omega
  have hb : ¬ pyLower tr.action = "buy" := by
    rw [hsell]
    decide
  constructor
  · intro hu
    have hlt : ¬ tr.units < s.position := by omega
    have heu : s.entry_units > 0 := by omega
    have heuQ : (0 : ℚ) < (s.entry_units : ℚ) := by exact_mod_cast heu
    have huQ : (tr.units : ℚ) = (s.entry_units : ℚ) := by
      rw [hinv, hu]
    have hbound : pt * (s.entry_cost / (s.entry_units : ℚ)) * (tr.units : ℚ) =
        pt * s.entry_cost := by
      rw [huQ, mul_assoc, div_mul_cancel₀ _ (ne_of_gt heuQ)]
    constructor
    · simp only [rtStep, if_neg hp0, if_neg hb, if_pos hsell, if_neg hlt, if_pos hu]
    · by_cases hrp : s.realized_profit +
          (tr.price - s.entry_cost / (s.entry_units : ℚ)) * (tr.units : ℚ) > pt * s.entry_cost
      · by_cases hdur : tr.tick - et ≤ tw
        · rw [if_pos ⟨hrp, hdur⟩]
          have hred : (rtStep pt tw (s, sus) tr).2 =
              susPut (susPut sus tr.tick (max (susGet sus tr.tick) 1)) et
                (max (susGet (susPut sus tr.tick (max (susGet sus tr.tick) 1)) et) (1/2)) := by
            simp only [rtStep, if_neg hp0, if_neg hb, if_pos hsell, if_neg hlt, if_pos hu,
              if_pos heu, hbound, het]
            rw [if_pos hrp, if_pos hdur]
          rw [hred]
          constructor
          · rw [susGet_susPut_other _ _ _ _ (Ne.symm hne), susGet_susPut_self]
          · rw [susGet_susPut_self, susGet_susPut_other _ _ _ _ hne]
        · rw [if_neg (by tauto)]
          simp only [rtStep, if_neg hp0, if_neg hb, if_pos hsell, if_neg hlt, if_pos hu,
            if_pos heu, hbound, het]
          rw [if_pos hrp, if_neg hdur]
      · rw [if_neg (by tauto)]
        simp only [rtStep, if_neg hp0, if_neg hb, if_pos hsell, if_neg hlt, if_pos hu,
          if_pos heu, hbound, het]
        rw [if_neg hrp]
  · intro hgt
    have hlt : ¬ tr.units < s.position := by omega
    have hequ : ¬ tr.units = s.position := by omega
    simp only [rtStep, if_neg hp0, if_neg hb, if_pos hsell, if_neg hlt, if_neg hequ]

/-- C5 amended witness: the exact-close case on the specification's scenario
(buy 5 at 100 on tick 3, sell 5 at 105 on tick 4, threshold 0, window 20)
resets the state to Flat. -/
theorem rt_full_close_exact_witness :
    (rtStep PROFIT_THRESHOLD TIME_WINDOW
        (({ position := 5, entry_cost := 500, entry_units := 5, entry_tick := some 3,
            realized_profit := 0 } : RTState), [])
        ⟨4, 1, "sell", 5, 105⟩).1 = rtInit :=
  ((rt_full_close_exact PROFIT_THRESHOLD TIME_WINDOW
      ⟨5, 500, 5, some 3, 0⟩ [] ⟨4, 1, "sell", 5, 105⟩ 3
      (by decide) (by norm_num) rfl rfl (by decide)).1 rfl).1

/-! ## Strategy trade sizes (claim C9) -/

theorem pyInt_nonneg (q : ℚ) (h : 0 ≤ q) : 0 ≤ pyInt q := by
  simp only [pyInt, if_pos h]
  exact Int.floor_nonneg.mpr h

theorem one_le_pyInt (q : ℚ) (h : 1 ≤ q) : 1 ≤ pyInt q := by
  have h0 : 0 ≤ q := by linarith
  simp only [pyInt, if_pos h0]
  exact Int.le_floor.mpr (by exact_mod_cast h)

theorem scaled_units_pos (se x : ℚ) (hse : 0 ≤ se) :
    1 ≤ pyInt (se * max 0 x) + 1 := by
  have := pyInt_nonneg (se * max 0 x) (mul_nonneg hse (le_max_left 0 x))
  omega

/-- C9: every strategy's decide function returns either no intent or an
intent whose unit count is at least 1, for any market and agent state (and,
where the sizing formula scales, any non-negative calibration drawn from the
documented ranges). -/
theorem strategy_units_positive :
    (∀ (th se price lastp : ℚ), 0 ≤ se →
      ∀ a u, trendDecide th se price lastp = some (a, u) → 1 ≤ u) ∧
    (∀ (th se price lastp : ℚ), 0 ≤ se →
      ∀ a u, meanRevDecide th se price lastp = some (a, u) → 1 ≤ u) ∧
    (∀ (lb : Nat) (th se : ℚ) (hist : List ℚ) (price : ℚ), 0 ≤ se →
      ∀ a u, momentumDecide lb th se hist price = some (a, u) → 1 ≤ u) ∧
    (∀ (w : Nat) (th : ℚ) (hist : List ℚ) (price : ℚ),
      ∀ a u, breakoutDecide w th hist price = some (a, u) → 1 ≤ u) ∧
    (∀ (w : Nat) (th se : ℚ) (hist : List ℚ) (price : ℚ), 0 ≤ se →
      ∀ a u, valueDecide w th se hist price = some (a, u) → 1 ≤ u) ∧
    (∀ (agg : ℚ) (lastAct : Bool) (lastDir tick : Int) (biasAct : Bool)
        (biasDir : Int) (price cash : ℚ) (holdings : Int), 0 ≤ agg →
      ∀ a u, (arbDecide agg lastAct lastDir tick biasAct biasDir price cash holdings).1 =
        some (a, u) → 1 ≤ u) := by
  refine ⟨?_, ?_, ?_, ?_, ?_, ?_⟩
  · intro th se price lastp hse a u h
    simp only [trendDecide] at h
    split_ifs at h
    all_goals injection h with hp
    all_goals injection hp with ha hu
    all_goals rw [← hu]
    all_goals exact scaled_units_pos se _ hse
  · intro th se price lastp hse a u h
    simp only [meanRevDecide] at h
    split_ifs at h
    all_goals injection h with hp
    all_goals injection hp with ha hu
    all_goals rw [← hu]
    all_goals exact scaled_units_pos se _ hse
  · intro lb th se hist price hse a u h
    simp only [momentumDecide] at h
    split_ifs at h
    all_goals injection h with hp
    all_goals injection hp with ha hu
    all_goals rw [← hu]
    all_goals exact scaled_units_pos se _ hse
  · intro w th hist price a u h
    simp only [breakoutDecide] at h
    split_ifs at h with g1 g2 g3 g4
    all_goals injection h with hp
    all_goals injection hp with ha hu
    all_goals rw [← hu]
    all_goals exact one_le_pyInt _ (by linarith)
  · intro w th se hist price hse a u h
    simp only [valueDecide] at h
    split_ifs at h
    all_goals injection h with hp
    all_goals injection hp with ha hu
    all_goals rw [← hu]
    all_goals exact scaled_units_pos se _ hse
  · intro agg lastAct lastDir tick biasAct biasDir price cash holdings hagg a u h
    simp only [arbDecide] at h
    by_cases h1 : (tick - 1) % 10 = 0 ∧ biasAct = true
    · have h2 : ¬(lastAct = true ∧ ¬ biasAct = true) := fun hc => hc.2 h1.2
      rw [if_pos h1, if_neg h2] at h
      by_cases hd1 : biasDir = 1
      · rw [if_pos hd1] at h
        by_cases hu : pyInt (agg * ((⌊cash / price⌋ : Int) : ℚ)) > 0
        · rw [if_pos hu] at h
          dsimp only at h
          injection h with hp
          injection hp with ha hu2
          omega
        · rw [if_neg hu] at h
          dsimp only at h
          exact Option.noConfusion h
      · rw [if_neg hd1] at h
        by_cases hdm : biasDir = -1
        · rw [if_pos hdm] at h
          by_cases hh : holdings > 0
          · rw [if_pos hh] at h
            dsimp only at h
            injection h with hp
            injection hp with ha hu2
            by_cases hu0 : pyInt (agg * ((holdings : Int) : ℚ)) = 0
            · rw [if_pos hu0] at hu2
              omega
            · have hge : 0 ≤ pyInt (agg * ((holdings : Int) : ℚ)) :=
                pyInt_nonneg _ (mul_nonneg hagg (by exact_mod_cast le_of_lt hh))
              rw [if_neg hu0] at hu2
              omega
          · rw [if_neg hh] at h
            dsimp only at h
            exact Option.noConfusion h
        · rw [if_neg hdm] at h
          dsimp only at h
          exact Option.noConfusion h
    · rw [if_neg h1] at h
      by_cases h2 : lastAct = true ∧ ¬ biasAct = true
      · rw [if_pos h2] at h
        by_cases hl1 : lastDir = 1
        · rw [if_pos hl1] at h
          by_cases hh : holdings > 0
          · rw [if_pos hh] at h
            dsimp only at h
            injection h with hp
            injection hp with ha hu2
            omega
          · rw [if_neg hh] at h
            dsimp only at h
            exact Option.noConfusion h
        · rw [if_neg hl1] at h
          by_cases hlm : lastDir = -1
          · rw [if_pos hlm] at h
            by_cases hu : pyInt (agg * ((⌊cash / price⌋ : Int) : ℚ)) > 0
            · rw [if_pos hu] at h
              dsimp only at h
              injection h with hp
              injection hp with ha hu2
              omega
            · rw [if_neg hu] at h
              dsimp only at h
              exact Option.noConfusion h
          · rw [if_neg hlm] at h
            dsimp only at h
            exact Option.noConfusion h
      · rw [if_neg h2] at h
        dsimp only at h
        exact Option.noConfusion h

/-- C9 witness: an arbitrage trader whose upward bias just ended sells its 3
holdings, and the returned unit count is at least 1. -/
theorem strategy_units_positive_witness : (1 : Int) ≤ 3 :=
  strategy_units_positive.2.2.2.2.2 1 true 1 5 false 0 10 100 3 (by norm_num) "sell" 3
    (by norm_num +decide [arbDecide, pyInt])

/-! ## price_by_tick construction (claim C10) -/

theorem organizePass_fold :
    ∀ (trades : List Trade) (m : Int → Option ℚ) (l : Option ℚ) (t : Int),
      (trades.foldl
        (fun (acc : (Int → Option ℚ) × Option ℚ) tr =>
          ((fun u => if u = tr.tick then some tr.price else acc.1 u), some tr.price))
        (m, l)).1 t =
      trades.foldl (fun acc tr => if tr.tick = t then some tr.price else acc) (m t)
  | [], _, _, _ => rfl
  | tr :: trades, m, l, t => by
    rw [List.foldl_cons, List.foldl_cons, organizePass_fold trades]
    congr 1
    by_cases h : t = tr.tick
    · rw [if_pos h, if_pos h.symm]
    · rw [if_neg h, if_neg (fun hh => h hh.symm)]

theorem organizePass_fst (trades : List Trade) (t : Int) :
    (organizePass trades).1 t = lastPriceAt trades t := by
  unfold organizePass lastPriceAt
  exact organizePass_fold trades (fun _ => none) none t

theorem lastPriceAt_fold_isSome :
    ∀ (trades : List Trade) (acc : Option ℚ) (t : Int),
      (trades.foldl (fun acc tr => if tr.tick = t then some tr.price else acc) acc).isSome =
        (acc.isSome || trades.any (fun tr => tr.tick = t))
  | [], acc, t => by simp
  | tr :: trades, acc, t => by
    rw [List.foldl_cons, lastPriceAt_fold_isSome trades, List.any_cons]
    by_cases h : tr.tick = t
    · simp [h]
    · simp [h]

theorem lastPriceAt_isSome (trades : List Trade) (t : Int) :
    (lastPriceAt trades t).isSome = hasTradeAt trades t := by
  unfold lastPriceAt hasTradeAt
  rw [lastPriceAt_fold_isSome]
  simp

theorem mem_intRangeAux :
    ∀ (n : Nat) (lo t : Int), t ∈ intRangeAux lo n ↔ lo ≤ t ∧ t < lo + n
  | 0, lo, t => by
    simp only [intRangeAux, List.not_mem_nil, false_iff]
    omega
  | n + 1, lo, t => by
    simp only [intRangeAux, List.mem_cons, mem_intRangeAux n (lo + 1) t]
    omega

theorem fillGaps_not_mem :
    ∀ (ts : List Int) (pbt : Int → Option ℚ) (last : Option ℚ) (t : Int),
      t ∉ ts → fillGaps pbt last ts t = pbt t
  | [], _, _, _, _ => rfl
  | s :: ts, pbt, last, t, hmem => by
    have hts : t ∉ ts := fun h => hmem (List.mem_cons_of_mem s h)
    have hst : t ≠ s := fun h => hmem (h ▸ List.mem_cons_self s ts)
    cases hp : pbt s with
    | none =>
      cases hl : last with
      | none =>
        simp only [fillGaps, hp, hl]
        exact fillGaps_not_mem ts pbt none t hts
      | some p =>
        simp only [fillGaps, hp, hl]
        rw [fillGaps_not_mem ts _ (some p) t hts]
        simp [hst]
    | some p =>
      simp only [fillGaps, hp]
      exact fillGaps_not_mem ts pbt (some p) t hts

theorem foldl_min_le :
    ∀ (l : List Int) (a : Int), l.foldl min a ≤ a ∧ ∀ x ∈ l, l.foldl min a ≤ x
  | [], a => ⟨le_refl a, by simp⟩
  | b :: l, a => by
    obtain ⟨h1, h2⟩ := foldl_min_le l (min a b)
    rw [List.foldl_cons]
    refine ⟨le_trans h1 (min_le_left a b), ?_⟩
    intro x hx
    rcases List.mem_cons.mp hx with rfl | hx
    · exact le_trans h1 (min_le_right a x)
    · exact h2 x hx

theorem foldl_min_mem :
    ∀ (l : List Int) (a : Int), l.foldl min a = a ∨ l.foldl min a ∈ l
  | [], a => Or.inl rfl
  | b :: l, a => by
    rw [List.foldl_cons]
    rcases foldl_min_mem l (min a b) with h | h
    · rcases min_choice a b with hc | hc
      · exact Or.inl (h.trans hc)
      · refine Or.inr ?_
        rw [h, hc]
        exact List.mem_cons_self b l
    · exact Or.inr (List.mem_cons_of_mem b h)

theorem foldl_max_le :
    ∀ (l : List Int) (a : Int), a ≤ l.foldl max a ∧ ∀ x ∈ l, x ≤ l.foldl max a
  | [], a => ⟨le_refl a, by simp⟩
  | b :: l, a => by
    obtain ⟨h1, h2⟩ := foldl_max_le l (max a b)
    rw [List.foldl_cons]
    refine ⟨le_trans (le_max_left a b) h1, ?_⟩
    intro x hx
    rcases List.mem_cons.mp hx with rfl | hx
    · exact le_trans (le_max_right a x) h1
    · exact h2 x hx

theorem minTick_le (trades : List Trade) (tr : Trade) (htr : tr ∈ trades) :
    minTick trades ≤ tr.tick := by
  unfold minTick
  cases hm : trades.map (fun tr => tr.tick) with
  | nil =>
    exfalso
    have := List.mem_map_of_mem (fun tr => tr.tick) htr
    rw [hm] at this
    exact List.not_mem_nil _ this
  | cons h t =>
    have hmem : tr.tick ∈ h :: t := by
      rw [← hm]
      exact List.mem_map_of_mem (fun tr => tr.tick) htr
    rcases List.mem_cons.mp hmem with he | hmem2
    · rw [he]
      exact (foldl_min_le t h).1
    · exact (foldl_min_le t h).2 _ hmem2

theorem le_maxTick (trades : List Trade) (tr : Trade) (htr : tr ∈ trades) :
    tr.tick ≤ maxTick trades := by
  unfold maxTick
  cases hm : trades.map (fun tr => tr.tick) with
  | nil =>
    exfalso
    have := List.mem_map_of_mem (fun tr => tr.tick) htr
    rw [hm] at this
    exact List.not_mem_nil _ this
  | cons h t =>
    have hmem : tr.tick ∈ h :: t := by
      rw [← hm]
      exact List.mem_map_of_mem (fun tr => tr.tick) htr
    rcases List.mem_cons.mp hmem with he | hmem2
    · rw [he]
      exact (foldl_max_le t h).1
    · exact (foldl_max_le t h).2 _ hmem2

theorem minTick_hasTrade (trades : List Trade) (hne : trades ≠ []) :
    hasTradeAt trades (minTick trades) = true := by
  unfold minTick
  cases hm : trades.map (fun tr => tr.tick) with
  | nil =>
    exact absurd (List.map_eq_nil_iff.mp hm) hne
  | cons h t =>
    have hmem : t.foldl min h ∈ h :: t := by
      rcases foldl_min_mem t h with he | hmem2
      · rw [he]
        exact List.mem_cons_self h t
      · exact List.mem_cons_of_mem h hmem2
    rw [← hm] at hmem
    obtain ⟨tr, htr, htt⟩ := List.mem_map.mp hmem
    unfold hasTradeAt
    rw [List.any_eq_true]
    exact ⟨tr, htr, by simp [htt]⟩

theorem fillGaps_correct (trades : List Trade) :
    ∀ (n : Nat) (lo : Int) (pbt : Int → Option ℚ) (last : Option ℚ),
      (∀ u, lo ≤ u → pbt u = lastPriceAt trades u) →
      minTick trades ≤ lo →
      (minTick trades < lo →
        ∃ t0, t0 < lo ∧ minTick trades ≤ t0 ∧ hasTradeAt trades t0 = true ∧
          (∀ u, t0 < u → u < lo → hasTradeAt trades u = false) ∧
          last = lastPriceAt trades t0) →
      hasTradeAt trades (minTick trades) = true →
      ∀ t, lo ≤ t → t < lo + n →
        ∃ t', t' ≤ t ∧ minTick trades ≤ t' ∧ hasTradeAt trades t' = true ∧
          (∀ u, t' < u → u ≤ t → hasTradeAt trades u = false) ∧
          fillGaps pbt last (intRangeAux lo n) t = lastPriceAt trades t' ∧
          (hasTradeAt trades t = true → t' = t)
  | 0, lo, pbt, last, _, _, _, _, t, hlot, htn => absurd htn (by omega)
  | n + 1, lo, pbt, last, hpbt, hminle, hlastInv, hminpres, t, hlot, htn => by
    have hplo : pbt lo = lastPriceAt trades lo := hpbt lo (le_refl lo)
    by_cases hpres : hasTradeAt trades lo = true
    · have hsome : (lastPriceAt trades lo).isSome := by
        rw [lastPriceAt_isSome]
        exact hpres
      obtain ⟨p, hp⟩ := Option.isSome_iff_exists.mp hsome
      have hred : fillGaps pbt last (intRangeAux lo (n + 1)) =
          fillGaps pbt (some p) (intRangeAux (lo + 1) n) := by
        simp only [intRangeAux, fillGaps, hplo, hp]
      by_cases hteq : t = lo
      · subst hteq
        refine ⟨t, le_refl t, hminle, hpres, ?_, ?_, fun _ => rfl⟩
        · intro u h1 h2
          exact absurd (lt_of_lt_of_le h1 h2) (lt_irrefl t)
        · rw [hred, fillGaps_not_mem _ _ _ _ ?_, hplo]
          rw [mem_intRangeAux]
          omega
      · have IH := fillGaps_correct trades n (lo + 1) pbt (some p)
          (fun u hu => hpbt u (by omega)) (by omega)
          (fun _ => ⟨lo, by omega, hminle, hpres,
            fun u h1 h2 => absurd (by omega : (1:Int) ≤ 0) (by norm_num), hp.symm⟩)
          hminpres t (by omega) (by omega)
        rw [hred]
        exact IH
    · have hfalse : hasTradeAt trades lo = false := by
        revert hpres
        cases hasTradeAt trades lo <;> simp
      have hnone : lastPriceAt trades lo = none := by
        have hns : (lastPriceAt trades lo).isSome = false := by
          rw [lastPriceAt_isSome]
          exact hfalse
        exact Option.not_isSome_iff_eq_none.mp (by rw [hns]; exact Bool.false_ne_true)
      have hminlt : minTick trades < lo := by
        rcases lt_or_eq_of_le hminle with h | h
        · exact h
        · exfalso
          rw [← h] at hpres
          exact hpres hminpres
      obtain ⟨t0, ht0lo, ht0min, ht0pres, ht0gap, ht0last⟩ := hlastInv hminlt
      have ht0some : (lastPriceAt trades t0).isSome := by
        rw [lastPriceAt_isSome]
        exact ht0pres
      obtain ⟨p, hp⟩ := Option.isSome_iff_exists.mp ht0some
      have hlastp : last = some p := by rw [ht0last, hp]
      have hred : fillGaps pbt last (intRangeAux lo (n + 1)) =
          fillGaps (fun u => if u = lo then some p else pbt u) last
            (intRangeAux (lo + 1) n) := by
        simp only [intRangeAux, fillGaps, hplo, hnone, hlastp]
      by_cases hteq : t = lo
      · subst hteq
        refine ⟨t0, by omega, ht0min, ht0pres, ?_, ?_, ?_⟩
        · intro u h1 h2
          rcases lt_or_eq_of_le h2 with h3 | h3
          · exact ht0gap u h1 h3
          · rw [h3]
            exact hfalse
        · rw [hred, fillGaps_not_mem _ _ _ _ ?_]
          · simp [hp]
          · rw [mem_intRangeAux]
            omega
        · intro hcontra
          exact absurd hcontra hpres
      · have IH := fillGaps_correct trades n (lo + 1)
          (fun u => if u = lo then some p else pbt u) last
          (fun u hu => by
            show (if u = lo then some p else pbt u) = lastPriceAt trades u
            rw [if_neg (by omega : ¬ u = lo)]
            exact hpbt u (by omega))
          (by omega)
          (fun _ => ⟨t0, by omega, ht0min, ht0pres,
            (fun u h1 h2 => by
              rcases lt_or_eq_of_le (by omega : u ≤ lo) with h3 | h3
              · exact ht0gap u h1 h3
              · rw [h3]
                exact hfalse),
            ht0last⟩)
          hminpres t (by omega) (by omega)
        rw [hred]
        exact IH

/-- C10: for a non-empty trade list, the `price_by_tick` map built by
`_organize_trades` is defined on every integer tick in `[min_tick, max_tick]`:
a tick at which trades occur maps to the price of its last trade in input
order, and a tick with no trades maps to the carried-forward last-trade price
of the nearest preceding tick that has trades — so a rule scanning future
prices finds a price at every in-range tick. -/
theorem priceByTick_total (trades : List Trade) (hne : trades ≠ []) (t : Int)
    (h1 : minTick trades ≤ t) (h2 : t ≤ maxTick trades) :
    ∃ t', t' ≤ t ∧ minTick trades ≤ t' ∧ hasTradeAt trades t' = true ∧
      (∀ u, t' < u → u ≤ t → hasTradeAt trades u = false) ∧
      priceByTick trades t = lastPriceAt trades t' ∧
      (priceByTick trades t).isSome = true ∧
      (hasTradeAt trades t = true → t' = t) := by
  cases trades with
  | nil => exact absurd rfl hne
  | cons a l =>
    have hred : priceByTick (a :: l) =
        fillGaps (organizePass (a :: l)).1 (organizePass (a :: l)).2
          (intRangeAux (minTick (a :: l))
            (maxTick (a :: l) + 1 - minTick (a :: l)).toNat) := rfl
    obtain ⟨t', p1, p2, p3, p4, p5, p7⟩ := fillGaps_correct (a :: l)
      (maxTick (a :: l) + 1 - minTick (a :: l)).toNat (minTick (a :: l))
      (organizePass (a :: l)).1 (organizePass (a :: l)).2
      (fun u _ => organizePass_fst (a :: l) u)
      (le_refl _)
      (fun hcontra => absurd hcontra (lt_irrefl _))
      (minTick_hasTrade (a :: l) (List.cons_ne_nil a l))
      t h1 (by omega)
    refine ⟨t', p1, p2, p3, p4, ?_, ?_, p7⟩
    · rw [hred]
      exact p5
    · rw [hred, p5, lastPriceAt_isSome]
      exact p3

/-- C10 witness: in the gap ledger (trades at ticks 0 and 2 only), the
carried-forward map is defined at the in-between tick 1. -/
theorem priceByTick_total_witness : (priceByTick c1Trades 1).isSome = true := by
  obtain ⟨t', _, _, _, _, _, h6, _⟩ := priceByTick_total c1Trades
    (by simp [c1Trades]) 1
    (by norm_num [minTick, c1Trades])
    (by norm_num [maxTick, c1Trades])
  exact h6

/-! ## Detection output rows (claim C1) -/

/-- C1 (failing input): on a ledger with trades at ticks 0 and 2 only,
`save_to_csv` iterates `sorted(all_ticks)` — the set of ticks that have at
least one trade — so the output rows are exactly ticks 0 and 2, and tick 1,
although inside `[min_tick, max_tick] = [0, 2]`, gets no row at all, contrary
to the gapless coverage the claim (and main.py's own module docstring)
requires. -/
theorem output_rows_skip_gap_tick :
    (runPipeline c1Trades).map Prod.fst = [0, 2] ∧
    minTick c1Trades = 0 ∧ maxTick c1Trades = 2 ∧
    (1 : Int) ∉ (runPipeline c1Trades).map Prod.fst := by
  have hticks : (runPipeline c1Trades).map Prod.fst = allTicksSorted c1Trades := by
    simp only [runPipeline, saveRows, List.map_map]
    show List.map (fun t => t) (allTicksSorted c1Trades) = allTicksSorted c1Trades
    exact List.map_id _
  have hval : allTicksSorted c1Trades = [0, 2] := by
    norm_num +decide [allTicksSorted, sortInts, sortedInsertInt, c1Trades, List.dedup]
  refine ⟨by rw [hticks, hval], by norm_num [minTick, c1Trades],
    by norm_num [maxTick, c1Trades], by rw [hticks, hval]; decide⟩

end HFT
